import Mathlib

/-!
Verification development for the trip-planning assistant
(`src/graph_flow.py`, `src/tools.py`, `src/scheduler/smart_scheduler.py`).

The Python code is shallowly embedded: dictionaries holding itinerary
entries become the `Item` structure (absent optional keys are represented
by the empty string, `0`, or a default day of `1`, matching the
`dict.get(key, default)` accesses of the source), tool results become the
`ToolRes` inductive, and code that raises is modelled with `Except`.  The
scheduler is embedded as the failing run it is in the source:
`plan_itinerary_timeline` awaits the synchronous `plan_day`, and
`plan_day` calls the `async` route lookup without awaiting it, so every
non-empty day group raises and the tool's exception handler returns the
input itinerary unchanged.
`difflib.SequenceMatcher.ratio` is embedded by its documented algorithm
(total size of recursively chosen longest matching blocks; the autojunk
heuristic never fires on the short place names involved, as it requires
strings of length ≥ 200).
-/

namespace TripPlan

/-- Two-digit zero padding, as produced by `strftime("%H:%M")`. -/
def pad2 (n : Nat) : String := if n < 10 then "0" ++ toString n else toString n

/-- Formats a time cursor held in seconds since midnight of the start date,
appending the explicit day-offset suffix the scheduler adds when a
timestamp crosses midnight (`smart_scheduler.py`, the `(+N일)` suffix). -/
def fmtTime (secs : Nat) : String :=
  let base := pad2 ((secs / 3600) % 24) ++ ":" ++ pad2 ((secs / 60) % 60)
  if secs / 86400 = 0 then base
  else base ++ " (+" ++ toString (secs / 86400) ++ "일)"

/-- Boolean prefix test on character lists. -/
def isPrefixB : List Char → List Char → Bool
  | [], _ => true
  | _ :: _, [] => false
  | a :: as, b :: bs => decide (a = b) && isPrefixB as bs

/-- Boolean infix test on character lists (Python's `needle in haystack`;
an empty needle is contained in everything). -/
def isInfixB (n : List Char) : List Char → Bool
  | [] => isPrefixB n []
  | h :: t => isPrefixB n (h :: t) || isInfixB n t

/-- Python's substring containment `needle in haystack` on strings. -/
def strContains (needle hay : String) : Bool :=
  isInfixB needle.toList hay.toList

/-- Hangul syllable range `가`-`힣` used by `normalize_name`'s character
class `[a-zA-Z0-9가-힣]`. -/
def isHangul (c : Char) : Bool :=
  0xAC00 ≤ c.toNat && c.toNat ≤ 0xD7A3

/-- Characters kept by `normalize_name` (`graph_flow.py`): ASCII letters
and digits plus Hangul syllables. -/
def keepChar (c : Char) : Bool := c.isAlphanum || isHangul c

/-- Scans forward for `close`, returning the remainder after it; fails at a
newline or the end, mirroring the non-greedy `\(.*?\)` which cannot cross a
newline. -/
def dropUntilClose (close : Char) : List Char → Option (List Char)
  | [] => none
  | c :: t => if c = close then some t
              else if c = '\n' then none
              else dropUntilClose close t

theorem dropUntilClose_length_le (close : Char) :
    ∀ l r, dropUntilClose close l = some r → r.length ≤ l.length := by
  intro l
  induction l with
  | nil => intro r h; simp [dropUntilClose] at h
  | cons c t ih =>
    intro r h
    simp only [dropUntilClose] at h
    by_cases h1 : c = close
    · rw [if_pos h1] at h
      cases h
      simp [List.length_cons]
    · rw [if_neg h1] at h
      by_cases h2 : c = '\n'
      · rw [if_pos h2] at h; cases h
      · rw [if_neg h2] at h
        have := ih r h
        simp [List.length_cons]
        omega

/-- Fuel-driven removal of parenthesised and bracketed segments, embedding
`re.sub(r'\(.*?\)|\[.*?\]', '', s)` in `normalize_name`.  Fuel
`l.length + 1` always suffices since every recursive call shortens the
list. -/
def stripBracketsF : Nat → List Char → List Char
  | 0, l => l
  | _ + 1, [] => []
  | f + 1, c :: rest =>
    if c = '(' then
      match dropUntilClose ')' rest with
      | some t => stripBracketsF f t
      | none => c :: stripBracketsF f rest
    else if c = '[' then
      match dropUntilClose ']' rest with
      | some t => stripBracketsF f t
      | none => c :: stripBracketsF f rest
    else c :: stripBracketsF f rest

/-- Embedding of `normalize_name` (`graph_flow.py`): drop bracketed
segments, then keep only alphanumerics and Hangul. -/
def normalizeName (s : String) : String :=
  String.mk ((stripBracketsF (s.toList.length + 1) s.toList).filter keepChar)

/-- Length of the common prefix of two character lists. -/
def commonPrefixLen : List Char → List Char → Nat
  | a :: as, b :: bs => if a = b then commonPrefixLen as bs + 1 else 0
  | _, _ => 0

/-- Longest matching block of `a` and `b` as `(i, j, k)`: `k` maximal with
`a[i:i+k] = b[j:j+k]`, ties broken by smallest `i`, then smallest `j`
(the documented behaviour of `difflib.SequenceMatcher.find_longest_match`
without junk). -/
def bestMatch (a b : List Char) : Nat × Nat × Nat :=
  (List.range a.length).foldl (fun best i =>
    (List.range b.length).foldl (fun best j =>
      let k := commonPrefixLen (a.drop i) (b.drop j)
      if k > best.2.2 then (i, j, k) else best) best) (0, 0, 0)

/-- Fuel-driven total number of matched characters, following
`SequenceMatcher.get_matching_blocks`: take the longest matching block and
recurse on the pieces to its left and right.  Each recursive call acts on
a strictly shorter first list, so fuel `a.length + 1` suffices. -/
def matchesTotalF : Nat → List Char → List Char → Nat
  | 0, _, _ => 0
  | f + 1, a, b =>
    let (i, j, k) := bestMatch a b
    if k = 0 then 0
    else matchesTotalF f (a.take i) (b.take j) + k +
         matchesTotalF f (a.drop (i + k)) (b.drop (j + k))

def matchesTotal (a b : List Char) : Nat :=
  matchesTotalF (a.length + 1) a b

/-- Exact rational similarity value, as an unreduced
numerator/denominator pair with positive denominator (the Python code
compares floats; the comparisons below are the exact-arithmetic reading
of those comparisons). -/
abbrev Score := Nat × Nat

/-- Exact comparison `a < b` on score fractions (cross-multiplication;
denominators are positive). -/
def scoreLt (a b : Score) : Bool := decide (a.1 * b.2 < b.1 * a.2)

/-- Exact comparison `a ≤ b` on score fractions. -/
def scoreLe (a b : Score) : Bool := decide (a.1 * b.2 ≤ b.1 * a.2)

/-- The `0.5` acceptance threshold. -/
def halfScore : Score := (1, 2)

/-- Embedding of `difflib.SequenceMatcher(None, a, b).ratio()`:
`2 * M / T` with `M` the total matched characters and `T` the combined
length (`1.0` when both strings are empty, as in `_calculate_ratio`). -/
def simScore (a b : String) : Score :=
  let t := a.toList.length + b.toList.length
  if t = 0 then (1, 1) else (2 * matchesTotal a.toList b.toList, t)

/-- Score used by `process_deletions` (`graph_flow.py`): the raw ratio,
bumped to at least `0.9` when the normalized target is contained in the
normalized stop name and is longer than one character
(`ratio = max(ratio, 0.9)`). -/
def delScore (tgtNorm placeNorm : String) : Score :=
  let r := simScore tgtNorm placeNorm
  if strContains tgtNorm placeNorm ∧ tgtNorm.length > 1 then
    if scoreLt r (9, 10) then (9, 10) else r
  else r

/-- Score used by the pre-scan in `execute_tools` (`graph_flow.py`):
containment counts as a perfect `1.0` match, with no length guard. -/
def preScore (tgtNorm placeNorm : String) : Score :=
  if strContains tgtNorm placeNorm then (1, 1) else simScore tgtNorm placeNorm

/-- Best-index search mirroring the `if score > highest_score` loops of
`graph_flow.py`: the running best index starts at `-1` (here `none`) with
score `0.0` and is replaced only on a strictly greater score. -/
def findBestAux : List Score → Nat → Option Nat → Score → Option Nat × Score
  | [], _, bi, bs => (bi, bs)
  | s :: rest, i, bi, bs =>
    if scoreLt bs s then findBestAux rest (i + 1) (some i) s
    else findBestAux rest (i + 1) bi bs

def findBest (scores : List Score) : Option Nat × Score :=
  findBestAux scores 0 none (0, 1)

/-- One itinerary entry: a stop, or a synthetic `"move"` / `"activity"`
record produced by the scheduler.  The Python dictionaries carry only the
keys relevant to their shape; absent string keys are represented by `""`,
absent numeric keys by `0`, and the day by its `dict.get('day', 1)`
default of `1`. -/
structure Item where
  name : String := ""
  type : String := ""
  day : Nat := 1
  category : String := ""
  startT : String := ""
  endT : String := ""
  durationMin : Nat := 0
  description : String := ""
  fromName : String := ""
  toName : String := ""
  durationText : String := ""
  transport : String := ""
  deriving DecidableEq, Repr

def defItem : Item := {}

/-- Parsed payload of one executed tool result, as consumed by
`process_deletions` / `process_additions` (`graph_flow.py`).  `failed`
covers results whose JSON parse raises (both functions skip those), and
`pdfSkip` is `confirm_and_download_pdf`'s `SKIP_FOR_LATER` placeholder. -/
inductive ToolRes where
  | del (target : Option String)
  | add (item : Item)
  | timeline
  | pdfSkip
  | failed
  deriving DecidableEq, Repr

/-- A requested tool call, as inspected by `execute_tools`' pre-scan:
`delete` stands for `delete_place` / `replace_place` with its
`place_name` / `old` argument, `other` for every other tool. -/
inductive ToolCall where
  | delete (target : Option String)
  | other
  deriving DecidableEq, Repr

/-- Strips `pre` from the front of a character list, returning the
remainder on success. -/
def stripPrefixChars : List Char → List Char → Option (List Char)
  | [], l => some l
  | _ :: _, [] => none
  | a :: as, b :: bs => if a = b then stripPrefixChars as bs else none

/-- Fuel-driven replacement of all non-overlapping occurrences of `pat`
(left to right), as Python's `str.replace`.  Fuel `l.length + 1` always
suffices for a non-empty pattern. -/
def replaceAllF : Nat → List Char → List Char → List Char → List Char
  | 0, l, _, _ => l
  | _ + 1, [], _, _ => []
  | f + 1, c :: rest, pat, rep =>
    match stripPrefixChars pat (c :: rest) with
    | some t => rep ++ replaceAllF f t pat rep
    | none => c :: replaceAllF f rest pat rep

/-- Python's `s.replace(pat, rep)` for the non-empty patterns used by
`get_category_group`. -/
def strReplace (s pat rep : String) : String :=
  if pat.toList.isEmpty then s
  else String.mk (replaceAllF (s.toList.length + 1) s.toList pat.toList rep.toList)

/-- Embedding of `get_category_group` (`graph_flow.py`). -/
def catGroup (typeStr : String) : String :=
  let t := strReplace (strReplace typeStr "맛집" "식당") "음식점" "식당"
  if ["식당", "요리", "레스토랑", "반점", "회관", "고기", "뷔페"].any
      (fun x => strContains x t) then "식당"
  else if ["카페", "커피", "베이커리", "디저트", "찻집"].any
      (fun x => strContains x t) then "카페"
  else "관광지"

/-! ## DayScheduler (`src/scheduler/smart_scheduler.py`) -/

/-- The `DEFAULT_DURATIONS` table, in the Python dict's insertion order
(the lookup takes the first key contained in the place type). -/
def defaultDurations : List (String × Nat) :=
  [("식당", 90), ("카페", 60), ("관광지", 120), ("산책로", 60),
   ("테마파크", 180), ("숙소", 0)]

/-- Embedding of `SmartScheduler._estimate_duration`. -/
def estimateDuration (p : Item) : Nat :=
  match defaultDurations.find? (fun kv => strContains kv.1 p.type) with
  | some kv => kv.2
  | none =>
    if strContains "카페" p.name || strContains "커피" p.name then 60
    else if strContains "식당" p.name || strContains "맛집" p.name then 90
    else 90

/-- Time-of-day label prefixes stripped by `extract_place_name_for_api`. -/
def timeLabels : List String :=
  ["점심", "저녁", "아침", "오전", "오후", "숙소", "출발", "도착"]

/-- After a matched label: optional whitespace, a colon, optional
whitespace (the `\s*:\s*` part of the prefix regex). -/
def afterColon (l : List Char) : Option (List Char) :=
  match l.dropWhile (·.isWhitespace) with
  | ':' :: r => some (r.dropWhile (·.isWhitespace))
  | _ => none

/-- Strips a leading `label\s*:\s*` occurrence
(`^(점심|저녁|아침|오전|오후|숙소|출발|도착)\s*:\s*`). -/
def dropTimePrefix (l : List Char) : List Char :=
  match timeLabels.findSome?
      (fun lab => (stripPrefixChars lab.toList l).bind afterColon) with
  | some r => r
  | none => l

/-- Does `\s+(에서|및)\s+` match at the head of `l`? -/
def eseoAt (l : List Char) : Bool :=
  let ws := l.takeWhile (·.isWhitespace)
  let rest := l.dropWhile (·.isWhitespace)
  if ws.isEmpty then false
  else
    match stripPrefixChars "에서".toList rest with
    | some r => match r with | c :: _ => c.isWhitespace | [] => false
    | none =>
      match stripPrefixChars "및".toList rest with
      | some r => match r with | c :: _ => c.isWhitespace | [] => false
      | none => false

/-- Truncates at the first `\s+(에서|및)\s+` occurrence, embedding
`re.sub(r'\s+(에서|및)\s+.*', '', s)` (place names are newline-free, so
the `.*` swallows the whole remainder). -/
def truncEseo : List Char → List Char
  | [] => []
  | c :: rest => if eseoAt (c :: rest) then [] else c :: truncEseo rest

def stripWS (l : List Char) : List Char :=
  ((l.dropWhile (·.isWhitespace)).reverse.dropWhile (·.isWhitespace)).reverse

/-- Embedding of `extract_place_name_for_api`
(`smart_scheduler.py`): strip a time-of-day label prefix, cut trailing
`~에서/~및` explanatory clauses, trim whitespace, and fall back to the raw
name when the result is empty.  (In `plan_day` this cleaning still runs,
at lines 93-94, immediately before the unawaited route call aborts the
loop; its result never reaches an output.) -/
def extractPlaceNameForApi (s : String) : String :=
  let cleaned := stripWS (truncEseo (dropTimePrefix s.toList))
  if cleaned.isEmpty then s else String.mk cleaned

/-- Activity record built by `SmartScheduler.plan_day` for a stop. -/
def mkActivity (p : Item) (t0 : Nat) : Item :=
  let stay := estimateDuration p
  { type := "activity", name := p.name, category := p.type,
    startT := fmtTime t0, endT := fmtTime (t0 + stay * 60),
    durationMin := stay, description := p.description }

/-- Embedding of `SmartScheduler.plan_day` as it actually executes.
`plan_day` is a synchronous `def`; its first loop iteration builds the
first stop's activity record at the start cursor, but every later
iteration assigns `route_result = get_detailed_route(...)`
(`smart_scheduler.py` line 100) without awaiting the `async def`
`get_detailed_route` (`tools.py` line 125): `route_result` is therefore a
coroutine object, which is truthy — so the `else` branch (no route found,
10-minute walk assumption) is unreachable — and
`route_result.get('duration_value', 1800)` raises `AttributeError`.  A
day of two or more stops thus aborts before producing any schedule
entries; only the degenerate empty and one-stop days return a value. -/
def planDayRun (startSecs : Nat) : List Item → Except String (List Item)
  | [] => .ok []
  | [p] => .ok [mkActivity p startSecs]
  | _ :: _ :: _ =>
    .error "AttributeError: coroutine object has no attribute get"

/-- Exception raised by `await scheduler.plan_day(day_items)` (`tools.py`
line 469): when `plan_day` itself raises, that exception propagates; when
it returns (days of at most one stop), awaiting its plain list result
raises `TypeError` — the awaited value is never produced. -/
def awaitPlanDayError (startSecs : Nat) (places : List Item) : String :=
  match planDayRun startSecs places with
  | .error e => e
  | .ok _ => "TypeError: object list cannot be used in await expression"

/-- Inserts `d` into a strictly increasing list, keeping it sorted and
duplicate-free. -/
def insertUniq (d : Nat) : List Nat → List Nat
  | [] => [d]
  | x :: xs =>
    if d < x then d :: x :: xs
    else if d = x then x :: xs
    else x :: insertUniq d xs

/-- Embedding of Python's `sorted(list(set(l)))`. -/
def uniqSorted (l : List Nat) : List Nat := l.foldr insertUniq []

/-- Concatenation of per-day chunks (the `for day in days` accumulation
pattern used throughout `graph_flow.py` and `tools.py`). -/
def flatMapD (f : Nat → List Item) : List Nat → List Item
  | [] => []
  | d :: ds => f d ++ flatMapD f ds

/-- Embedding of the `plan_itinerary_timeline` tool (`tools.py` lines
452-484) as it actually executes.  It filters out move records and groups
the remaining stops by day with the scheduler built on the hard-coded
`"10:00"` start (36000 s); when at least one day is present, the first
loop iteration's `await scheduler.plan_day(day_items)` raises (see
`awaitPlanDayError` — each day group is non-empty by construction), the
rest of the loop body (day tagging, `duration_text` rewriting) is never
reached, and the `except` at lines 481-484 returns the input itinerary
unchanged, with no times assigned; with no stops at all the loop body
never runs and the empty accumulated timeline is returned. -/
def planItineraryTimeline (itinerary : List Item) : List Item :=
  let places := itinerary.filter (fun p => !(p.type == "move"))
  match uniqSorted (places.map (·.day)) with
  | [] => []
  | _ :: _ => itinerary

/-! ## ItineraryMutator (`src/graph_flow.py`) -/

/-- Sentinel name returned by `find_and_select_best_place` when no
candidate survives filtering. -/
def noPlaceSentinel : String := "추천 장소 없음"

/-- State threaded through `process_deletions`: the move-free stop list,
the last emptied slot `{index, day}`, and the modification /
explicit-reschedule flags. -/
structure DelState where
  places : List Item
  slot : Option (Nat × Nat) := none
  modified : Bool := false
  explicit : Bool := false
  deriving DecidableEq, Repr

/-- One iteration of the `process_deletions` loop. -/
def delStep (s : DelState) (r : ToolRes) : DelState :=
  match r with
  | .timeline => { s with explicit := true }
  | .del (some t) =>
    let tn := normalizeName t
    let (bi, bs) :=
      findBest (s.places.map (fun p => delScore tn (normalizeName p.name)))
    match bi with
    | some i =>
      if scoreLt halfScore bs then
        { s with places := s.places.eraseIdx i,
                 slot := some (i, (s.places.getD i defItem).day),
                 modified := true }
      else s
    | none => s
  | _ => s

/-- Embedding of `process_deletions` (`graph_flow.py`): it operates on the
move-free stop list and, per delete/replace result, fuzzy-matches the
normalized target against the current list (containment of a
multi-character target bumps the ratio to at least 0.9) and removes the
best match when its score exceeds 0.5, recording the emptied
`{index, day}` slot. -/
def processDeletions (results : List ToolRes) (itinerary : List Item) :
    DelState :=
  results.foldl delStep
    { places := itinerary.filter (fun p => !(p.type == "move")) }

/-- Python's `list.insert(i, x)`: inserts before position `i`, appending
when `i` exceeds the length. -/
def pyInsert (i : Nat) (x : α) : List α → List α
  | [] => [x]
  | a :: t => if i = 0 then x :: a :: t else a :: pyInsert (i - 1) x t

/-- State threaded through `process_additions`. -/
structure AddState where
  list : List Item
  slot : Option (Nat × Nat) := none
  anchor : String := ""
  modified : Bool := false
  fullStop : Bool := false
  deriving DecidableEq, Repr

def lastDayOf (l : List Item) : Nat :=
  match l.getLast? with
  | some p => p.day
  | none => 1

/-- Number of stops assigned to day `d` (`len([p for p in places if
p.get('day') == last_day])`). -/
def countDay (d : Nat) (l : List Item) : Nat :=
  (l.filter (fun p => p.day == d)).length

/-- Per-day capacity of the planning stage: day 1 caps at 4 (this branch
wins even when day 1 is the final day), the final day at 1, all other days
at 5. -/
def cap (d totalDays : Nat) : Nat :=
  if d = 1 then 4 else if d = totalDays then 1 else 5

/-- Planning-mode append fallback of `process_additions`: append to the
last day if below its cap, roll over to the next day when full and more
days remain, reject (setting the schedule-full flag and skipping the
anchor update) when full on the last day. -/
def planningAppend (totalDays : Nat) (s : AddState) (item : Item) :
    AddState :=
  let lastDay := lastDayOf s.list
  let cnt := countDay lastDay s.list
  let mx := cap lastDay totalDays
  if cnt ≥ mx then
    if lastDay ≥ totalDays then { s with fullStop := true }
    else { s with list := s.list ++ [{ item with day := lastDay + 1 }],
                  anchor := item.name }
  else { s with list := s.list ++ [{ item with day := lastDay }],
                anchor := item.name }

/-- First index whose entry is named `a` (the editing-mode anchor scan). -/
def findIdxName (a : String) : List Item → Option Nat
  | [] => none
  | p :: t =>
    if p.name = a then some 0
    else (findIdxName a t).map (· + 1)

/-- Editing-mode insertion of `process_additions`: insert right after the
anchor stop when present (inheriting its day; when that lands at the tail
the day is re-read from the last entry), otherwise append to the current
last day. -/
def editingInsert (s : AddState) (item : Item) : AddState :=
  let n := s.list.length
  if s.anchor ≠ "" then
    match findIdxName s.anchor s.list with
    | some idx =>
      let pos := idx + 1
      let d0 := (s.list.getD idx defItem).day
      let d := if pos = n ∧ s.list ≠ [] then lastDayOf s.list else d0
      { s with list := pyInsert pos { item with day := d } s.list,
               anchor := item.name }
    | none =>
      let d := if s.list ≠ [] then lastDayOf s.list else 1
      { s with list := s.list ++ [{ item with day := d }],
               anchor := item.name }
  else
    let d := if s.list ≠ [] then lastDayOf s.list else 1
    { s with list := s.list ++ [{ item with day := d }],
             anchor := item.name }

/-- Placement of one valid addition: into the pending empty slot if one
exists (clamped index, slot day, slot cleared), else by the planning rules
(replace the last stop when it shares its category group under a different
name, otherwise capacity-checked append), else by the editing rules.  (The
editing branch's own `empty_slot_info` re-check in the source is
unreachable, the slot having been consumed above, and is therefore not
repeated here.) -/
def addPlace (stage : String) (totalDays : Nat) (s : AddState)
    (item : Item) : AddState :=
  match s.slot with
  | some (i, d) =>
    let idx := if i > s.list.length then s.list.length else i
    { s with list := pyInsert idx { item with day := d } s.list,
             slot := none, anchor := item.name }
  | none =>
    if stage = "planning" then
      match s.list.getLast? with
      | some last =>
        if catGroup item.type = catGroup last.type ∧
            item.name ≠ last.name then
          { s with list := s.list.dropLast ++ [{ item with day := last.day }],
                   anchor := item.name }
        else planningAppend totalDays s item
      | none => planningAppend totalDays s item
    else editingInsert s item

/-- One iteration of the `process_additions` loop over a
`find_and_select_best_place` result: an empty or sentinel name is skipped,
otherwise the modification flag is set and the item is placed by
`addPlace`.  Every other result kind is a no-op here. -/
def addStep (stage : String) (totalDays : Nat) (s : AddState)
    (r : ToolRes) : AddState :=
  match r with
  | .add item =>
    if item.name = "" ∨ item.name = noPlaceSentinel then s
    else addPlace stage totalDays { s with modified := true } item
  | _ => s

/-- Embedding of `process_additions` (`graph_flow.py`), minus the
`show_pdf` scan (see `showPdfFlag`). -/
def processAdditions (stage : String) (totalDays : Nat)
    (results : List ToolRes) (itinerary : List Item)
    (slot0 : Option (Nat × Nat)) (anchor0 : String) : AddState :=
  results.foldl (addStep stage totalDays)
    { list := itinerary.filter (fun p => !(p.type == "move")),
      slot := slot0, anchor := anchor0 }

/-- The `show_pdf` pre-scan of `process_additions`. -/
def showPdfFlag (results : List ToolRes) : Bool :=
  results.any (fun r => r matches .pdfSkip)

/-- Slot bookkeeping at the end of `call_tools_node`:
`next_remembered_spot = None if mod_added else final_slot_info`. -/
def nextRemembered (modAdded : Bool) (slot : Option (Nat × Nat)) :
    Option (Nat × Nat) :=
  if modAdded then none else slot

/-- Ban-list update in `call_tools_node`: when a deletion happened this
turn, append every delete/replace result's raw target string (not the
matched stop's name) that is not already banned. -/
def banUpdate (results : List ToolRes) (modDeleted : Bool)
    (slot : Option (Nat × Nat)) (ban : List String) : List String :=
  if modDeleted ∧ slot.isSome then
    results.foldl (fun b r =>
      match r with
      | .del (some t) => if t ∈ b then b else b ++ [t]
      | _ => b) ban
  else ban

/-- Composition of the deletion pass with the ban-list update, as
performed by `call_tools_node`. -/
def banAfterTurn (results : List ToolRes) (itinerary : List Item)
    (ban : List String) : List String :=
  let st := processDeletions results itinerary
  banUpdate results st.modified st.slot ban

/-- Exclusion list handed to `find_and_select_best_place` by
`execute_tools`: the names of the current entries plus the ban list
(`pending_deletions` is initialized empty and never filled; Python's
`list(set(...))` loses order, which is immaterial since only membership is
consumed). -/
def finalExcludeList (itinerary : List Item) (ban : List String) :
    List String :=
  ((itinerary.filter (fun p => !(p.name == ""))).map (·.name) ++ ban).dedup

/-- Pre-scan of `execute_tools` (`graph_flow.py`): for the first
delete/replace call whose target fuzzy-matches the current entry list with
score above 0.5 (containment scoring a perfect 1.0), the dynamic search
anchor becomes the name of the entry preceding the match, or, for a match
at index 0, the session's current anchor when non-empty and otherwise the
destination. -/
def preScanAnchor (itinerary : List Item) (curAnchor dest : String) :
    List ToolCall → Option String
  | [] => none
  | .delete (some t) :: rest =>
    let tn := normalizeName t
    let (bi, bs) :=
      findBest (itinerary.map (fun p => preScore tn (normalizeName p.name)))
    (match bi with
     | some i =>
       if scoreLt halfScore bs then
         some (if i > 0 then (itinerary.getD (i - 1) defItem).name
               else if curAnchor ≠ "" then curAnchor else dest)
       else preScanAnchor itinerary curAnchor dest rest
     | none => preScanAnchor itinerary curAnchor dest rest)
  | _ :: rest => preScanAnchor itinerary curAnchor dest rest

/-! ## TimelineReconciler ordering (`graph_flow.py`) -/

/-- Per-day regrouping of `reorganize_itinerary_planning`: day 1 puts the
first restaurant first, then cafés, attractions, and the remaining
restaurants; other days lead with attractions. -/
def reorganizeDay (d : Nat) (dayItems : List Item) : List Item :=
  let rests := dayItems.filter (fun x => catGroup x.type == "식당")
  let cafes := dayItems.filter (fun x => catGroup x.type == "카페")
  let tours := dayItems.filter (fun x => catGroup x.type == "관광지")
  if d = 1 then
    match rests with
    | [] => cafes ++ tours
    | r :: rs => r :: (cafes ++ tours ++ rs)
  else
    match rests with
    | [] => tours ++ cafes
    | r :: rs => tours ++ (r :: (cafes ++ rs))

/-- Embedding of `reorganize_itinerary_planning` (`graph_flow.py`). -/
def reorganizeItineraryPlanning (items : List Item) : List Item :=
  if items = [] then []
  else
    flatMapD (fun d => reorganizeDay d (items.filter (fun x => x.day == d)))
      (uniqSorted (items.map (·.day)))

/-- Python's stable `sorted(final_itinerary, key=lambda x: x.get('day',
1))`, embedded extensionally as the concatenation of the day fibers in
ascending day order (the characteristic property of a stable
sort-by-key). -/
def sortByDayStable (items : List Item) : List Item :=
  flatMapD (fun d => items.filter (fun x => x.day == d))
    (uniqSorted (items.map (·.day)))

/-- Final ordering step of `call_tools_node`: regroup by category in
`planning` stage, stable-sort by day otherwise. -/
def normalizeByStage (stage : String) (items : List Item) : List Item :=
  if stage = "planning" then reorganizeItineraryPlanning items
  else sortByDayStable items

/-- Category sequence stated by the specification, for comparison with
the code's `reorganize_itinerary_planning`: "day 1: (first restaurant) →
cafés → attractions → (remaining restaurants); other days: attractions →
(first restaurant) → cafés → (remaining restaurants)". -/
def specCategorySequence (d : Nat) (dayItems : List Item) : List Item :=
  let rests := dayItems.filter (fun x => catGroup x.type == "식당")
  let cafes := dayItems.filter (fun x => catGroup x.type == "카페")
  let tours := dayItems.filter (fun x => catGroup x.type == "관광지")
  if d = 1 then rests.take 1 ++ cafes ++ tours ++ rests.drop 1
  else tours ++ rests.take 1 ++ cafes ++ rests.drop 1

/-! ## Boolean invariants used in the capacity claims -/

/-- Days are non-decreasing along the stop list (the shape maintained by
`call_tools_node`'s final per-day ordering and preserved by planning-mode
additions). -/
def monoB : List Item → Bool
  | a :: b :: t => decide (a.day ≤ b.day) && monoB (b :: t)
  | _ => true

/-- Every day occurring in the list is within its planning-stage cap
(days not present hold zero stops, hence are trivially within cap). -/
def capsOK (totalDays : Nat) (l : List Item) : Bool :=
  (l.map (·.day)).all (fun d => decide (countDay d l ≤ cap d totalDays))

def namesOf (l : List Item) : List String := l.map (·.name)

/-! ## General list helpers -/

theorem pyInsert_perm (i : Nat) (x : α) :
    ∀ l : List α, List.Perm (pyInsert i x l) (x :: l) := by
  intro l
  induction l generalizing i with
  | nil => simp [pyInsert]
  | cons a t ih =>
    by_cases h : i = 0
    · simp [pyInsert, h]
    · simp only [pyInsert, if_neg h]
      exact ((ih (i - 1)).cons a).trans (List.Perm.swap x a t)

theorem map_pyInsert (f : α → β) (i : Nat) (x : α) :
    ∀ l : List α, (pyInsert i x l).map f = pyInsert i (f x) (l.map f) := by
  intro l
  induction l generalizing i with
  | nil => simp [pyInsert]
  | cons a t ih =>
    by_cases h : i = 0
    · simp [pyInsert, h]
    · simp [pyInsert, if_neg h, ih]

theorem mem_pyInsert (i : Nat) (x y : α) (l : List α) :
    y ∈ pyInsert i x l ↔ y = x ∨ y ∈ l :=
  by rw [(pyInsert_perm i x l).mem_iff]; simp

theorem flatMapD_append_eq (f : Nat → List Item) (d : Nat) (ds : List Nat) :
    flatMapD f (d :: ds) = f d ++ flatMapD f ds := rfl

theorem filter_flatMapD (p : Item → Bool) (f : Nat → List Item) :
    ∀ ds, (flatMapD f ds).filter p = flatMapD (fun d => (f d).filter p) ds := by
  intro ds
  induction ds with
  | nil => rfl
  | cons d rest ih => simp [flatMapD, List.filter_append, ih]

theorem flatMapD_congr {f g : Nat → List Item} :
    ∀ ds, (∀ d ∈ ds, f d = g d) → flatMapD f ds = flatMapD g ds := by
  intro ds
  induction ds with
  | nil => intro _; rfl
  | cons d rest ih =>
    intro h
    simp only [flatMapD]
    rw [h d (by simp), ih (fun d' hd' => h d' (by simp [hd']))]

theorem flatMapD_perm_congr {f g : Nat → List Item} :
    ∀ ds, (∀ d ∈ ds, List.Perm (f d) (g d)) →
      List.Perm (flatMapD f ds) (flatMapD g ds) := by
  intro ds
  induction ds with
  | nil => intro _; rfl
  | cons d rest ih =>
    intro h
    exact (h d (by simp)).append (ih (fun d' hd' => h d' (by simp [hd'])))

theorem mem_insertUniq (d a : Nat) :
    ∀ l, a ∈ insertUniq d l ↔ a = d ∨ a ∈ l := by
  intro l
  induction l with
  | nil => simp [insertUniq]
  | cons x xs ih =>
    simp only [insertUniq]
    by_cases h1 : d < x
    · rw [if_pos h1]
      simp only [List.mem_cons]
    · rw [if_neg h1]
      by_cases h2 : d = x
      · rw [if_pos h2]
        subst h2
        simp only [List.mem_cons]
        tauto
      · rw [if_neg h2]
        simp only [List.mem_cons, ih]
        tauto

theorem pairwise_insertUniq (d : Nat) :
    ∀ l, l.Pairwise (· < ·) → (insertUniq d l).Pairwise (· < ·) := by
  intro l
  induction l with
  | nil => intro _; simp [insertUniq]
  | cons x xs ih =>
    intro hp
    rw [List.pairwise_cons] at hp
    simp only [insertUniq]
    by_cases h1 : d < x
    · rw [if_pos h1, List.pairwise_cons]
      refine ⟨?_, List.pairwise_cons.mpr hp⟩
      intro a ha
      rcases List.mem_cons.mp ha with rfl | ha
      · exact h1
      · exact h1.trans (hp.1 a ha)
    · rw [if_neg h1]
      by_cases h2 : d = x
      · rw [if_pos h2]; exact List.pairwise_cons.mpr hp
      · rw [if_neg h2, List.pairwise_cons]
        have hxd : x < d := by omega
        refine ⟨?_, ih hp.2⟩
        intro a ha
        rcases (mem_insertUniq d a xs).mp ha with rfl | ha
        · exact hxd
        · exact hp.1 a ha

theorem pairwise_uniqSorted (l : List Nat) :
    (uniqSorted l).Pairwise (· < ·) := by
  induction l with
  | nil => simp [uniqSorted]
  | cons x xs ih => exact pairwise_insertUniq x _ ih

theorem nodup_uniqSorted (l : List Nat) : (uniqSorted l).Nodup :=
  (pairwise_uniqSorted l).imp (fun h => Nat.ne_of_lt h)

theorem mem_uniqSorted (a : Nat) : ∀ l, a ∈ uniqSorted l ↔ a ∈ l := by
  intro l
  induction l with
  | nil => simp [uniqSorted]
  | cons x xs ih =>
    show a ∈ insertUniq x (uniqSorted xs) ↔ _
    rw [mem_insertUniq]
    simp only [List.mem_cons, ih]

theorem count_filter' [DecidableEq α] (a : α) (p : α → Bool) (l : List α) :
    (l.filter p).count a = if p a = true then l.count a else 0 := by
  by_cases h : p a = true
  · rw [if_pos h, List.count_filter h]
  · rw [if_neg h, List.count_eq_zero]
    intro hmem
    exact h (List.of_mem_filter hmem)

/-! ## Category / reorganization helpers -/

theorem catGroup_cases (t : String) :
    catGroup t = "식당" ∨ catGroup t = "카페" ∨ catGroup t = "관광지" := by
  simp only [catGroup]
  split
  · left; rfl
  · split
    · right; left; rfl
    · right; right; rfl

theorem reorganizeDay_eq_spec (d : Nat) (items : List Item) :
    reorganizeDay d items = specCategorySequence d items := by
  unfold reorganizeDay specCategorySequence
  by_cases hd : d = 1
  · rw [if_pos hd, if_pos hd]
    cases h : items.filter (fun x => catGroup x.type == "식당") with
    | nil => simp
    | cons r rs => simp
  · rw [if_neg hd, if_neg hd]
    cases h : items.filter (fun x => catGroup x.type == "식당") with
    | nil => simp
    | cons r rs => simp

theorem specCategorySequence_perm (d : Nat) (items : List Item) :
    List.Perm (specCategorySequence d items) items := by
  rw [List.perm_iff_count]
  intro a
  have hsum : ∀ x : Item,
      (items.filter (fun x => catGroup x.type == "식당")).count x +
      (items.filter (fun x => catGroup x.type == "카페")).count x +
      (items.filter (fun x => catGroup x.type == "관광지")).count x
        = items.count x := by
    intro x
    rw [count_filter', count_filter', count_filter']
    rcases catGroup_cases x.type with h | h | h <;> simp [h]
  have htd : ∀ l : List Item,
      (l.take 1).count a + (l.drop 1).count a = l.count a := by
    intro l
    rw [← List.count_append, List.take_append_drop]
  unfold specCategorySequence
  by_cases hd : d = 1
  · rw [if_pos hd]
    simp only [List.count_append]
    have := hsum a
    have := htd (items.filter (fun x => catGroup x.type == "식당"))
    omega
  · rw [if_neg hd]
    simp only [List.count_append]
    have := hsum a
    have := htd (items.filter (fun x => catGroup x.type == "식당"))
    omega

theorem reorganizeDay_perm (d : Nat) (items : List Item) :
    List.Perm (reorganizeDay d items) items := by
  rw [reorganizeDay_eq_spec]
  exact specCategorySequence_perm d items

theorem mem_reorganizeDay (d : Nat) (items : List Item) (x : Item) :
    x ∈ reorganizeDay d items ↔ x ∈ items :=
  (reorganizeDay_perm d items).mem_iff

/-- Concatenating the day fibers of `l` over a duplicate-free day list
covering every day of `l` is a permutation of `l`. -/
theorem fibers_perm :
    ∀ (ds : List Nat) (l : List Item), ds.Nodup →
      (∀ x ∈ l, x.day ∈ ds) →
      List.Perm (flatMapD (fun d => l.filter (fun x => x.day == d)) ds) l := by
  intro ds
  induction ds with
  | nil =>
    intro l _ hcov
    cases l with
    | nil => rfl
    | cons x t => exact absurd (hcov x (by simp)) (by simp)
  | cons d rest ih =>
    intro l hnd hcov
    rw [List.nodup_cons] at hnd
    simp only [flatMapD]
    have hchunks :
        flatMapD (fun d' => l.filter (fun x => x.day == d')) rest =
        flatMapD (fun d' =>
          (l.filter (fun x => !(x.day == d))).filter (fun x => x.day == d')) rest := by
      apply flatMapD_congr
      intro d' hd'
      rw [List.filter_filter]
      apply List.filter_congr
      intro x _
      by_cases hx : x.day = d'
      · have hdd : d' ≠ d := fun h => hnd.1 (h ▸ hd')
        simp [hx, hdd]
      · simp [hx]
    rw [hchunks]
    have hsub : ∀ x ∈ l.filter (fun x => !(x.day == d)), x.day ∈ rest := by
      intro x hx
      have hm := List.mem_filter.mp hx
      have := hcov x hm.1
      simp only [List.mem_cons] at this
      rcases this with h | h
      · exfalso; simp [h] at hm
      · exact h
    have := ih (l.filter (fun x => !(x.day == d))) hnd.2 hsub
    exact (List.Perm.append_left _ this).trans (List.filter_append_perm _ l)

/-- Main permutation fact for `reorganize_itinerary_planning`. -/
theorem reorganize_perm (l : List Item) :
    List.Perm (reorganizeItineraryPlanning l) l := by
  unfold reorganizeItineraryPlanning
  by_cases h : l = []
  · rw [if_pos h, h]
  · rw [if_neg h]
    have hcov : ∀ x ∈ l, x.day ∈ uniqSorted (l.map (·.day)) := by
      intro x hx
      rw [mem_uniqSorted]
      exact List.mem_map.mpr ⟨x, hx, rfl⟩
    refine List.Perm.trans ?_
      (fibers_perm (uniqSorted (l.map (·.day))) l (nodup_uniqSorted _) hcov)
    apply flatMapD_perm_congr
    intro d _
    exact reorganizeDay_perm d _

theorem mem_reorganize (l : List Item) (x : Item) :
    x ∈ reorganizeItineraryPlanning l ↔ x ∈ l :=
  (reorganize_perm l).mem_iff

/-- Filtering a fiber concatenation down to one day yields that day's
chunk (or nothing when the day is absent). -/
theorem flatMapD_filter_eq (g : Nat → List Item) (d : Nat) :
    ∀ ds, ds.Nodup → (∀ d' ∈ ds, ∀ x ∈ g d', x.day = d') →
      (flatMapD g ds).filter (fun x => x.day == d) =
        if d ∈ ds then g d else [] := by
  intro ds
  induction ds with
  | nil => intro _ _; simp [flatMapD]
  | cons d0 rest ih =>
    intro hnd hpure
    rw [List.nodup_cons] at hnd
    simp only [flatMapD, List.filter_append]
    by_cases hdd : d = d0
    · subst hdd
      have h1 : (g d).filter (fun x => x.day == d) = g d := by
        apply List.filter_eq_self.mpr
        intro a ha
        have := hpure d (by simp) a ha
        simp [this]
      have h2 : (flatMapD g rest).filter (fun x => x.day == d) = [] := by
        rw [ih hnd.2 (fun d' hd' => hpure d' (by simp [hd']))]
        rw [if_neg hnd.1]
      rw [h1, h2, List.append_nil, if_pos (by simp)]
    · have h1 : (g d0).filter (fun x => x.day == d) = [] := by
        apply List.filter_eq_nil_iff.mpr
        intro a ha
        have := hpure d0 (by simp) a ha
        simp [this, Ne.symm hdd]
      rw [h1, List.nil_append,
          ih hnd.2 (fun d' hd' => hpure d' (by simp [hd']))]
      have : (d ∈ d0 :: rest) = (d ∈ rest) := by
        simp [List.mem_cons, hdd]
      by_cases hmem : d ∈ rest
      · rw [if_pos hmem, if_pos (by simp [hmem])]
      · rw [if_neg hmem, if_neg (by simp [hdd, hmem])]

/-! ## Day-monotonicity and capacity helpers -/

def dayLE (a b : Item) : Prop := a.day ≤ b.day

theorem monoB_iff_pairwise :
    ∀ l : List Item, monoB l = true ↔ l.Pairwise dayLE := by
  intro l
  induction l with
  | nil => simp [monoB]
  | cons a t ih =>
    cases t with
    | nil => simp [monoB, dayLE]
    | cons b t' =>
      rw [List.pairwise_cons]
      constructor
      · intro h
        simp only [monoB, Bool.and_eq_true, decide_eq_true_eq] at h
        have hp := ih.mp h.2
        refine ⟨?_, hp⟩
        intro a' ha'
        rcases List.mem_cons.mp ha' with rfl | ha'
        · exact h.1
        · rw [List.pairwise_cons] at hp
          exact Nat.le_trans h.1 (hp.1 a' ha')
      · intro h
        simp only [monoB, Bool.and_eq_true, decide_eq_true_eq]
        exact ⟨h.1 b (by simp), ih.mpr h.2⟩

theorem lastDayOf_concat (l : List Item) (x : Item) :
    lastDayOf (l ++ [x]) = x.day := by
  simp [lastDayOf, List.getLast?_append]

theorem pairwise_day_mem_le_last (l : List Item) (h : l.Pairwise dayLE) :
    ∀ x ∈ l, x.day ≤ lastDayOf l := by
  cases hl : l with
  | nil => intro x hx; simp at hx
  | cons a t =>
    rw [← hl]
    have hne : l ≠ [] := by rw [hl]; simp
    have hdecomp := List.dropLast_append_getLast hne
    intro x hx
    rw [← hdecomp] at h hx
    rw [← hdecomp, lastDayOf_concat]
    rw [List.pairwise_append] at h
    rcases List.mem_append.mp hx with hx | hx
    · exact h.2.2 x hx _ (by simp)
    · simp at hx
      rw [hx]

theorem countDay_concat (d : Nat) (l : List Item) (x : Item) :
    countDay d (l ++ [x]) = countDay d l + (if x.day = d then 1 else 0) := by
  unfold countDay
  rw [List.filter_append, List.length_append]
  congr 1
  by_cases h : x.day = d <;> simp [h]

theorem countDay_absent (d : Nat) (l : List Item)
    (h : ∀ x ∈ l, x.day ≠ d) : countDay d l = 0 := by
  unfold countDay
  rw [List.length_eq_zero]
  apply List.filter_eq_nil_iff.mpr
  intro a ha
  simp [h a ha]

theorem cap_pos (d total : Nat) : 1 ≤ cap d total := by
  unfold cap
  split
  · omega
  · split <;> omega

theorem capsOK_iff (total : Nat) (l : List Item) :
    capsOK total l = true ↔ ∀ d ∈ l.map (·.day), countDay d l ≤ cap d total := by
  unfold capsOK
  rw [List.all_eq_true]
  constructor
  · intro h d hd; exact of_decide_eq_true (h d hd)
  · intro h d hd; exact decide_eq_true (h d hd)

/-- Appending a stop assigned to a day `t` which satisfies its cap with
room to spare keeps every day within cap. -/
theorem capsOK_concat (total : Nat) (l : List Item) (x : Item)
    (hcaps : capsOK total l = true)
    (hx : countDay x.day l + 1 ≤ cap x.day total) :
    capsOK total (l ++ [x]) = true := by
  rw [capsOK_iff] at hcaps ⊢
  intro d hd
  rw [countDay_concat]
  by_cases hxd : x.day = d
  · rw [if_pos hxd]
    rw [hxd] at hx
    omega
  · rw [if_neg hxd]
    simp only [List.map_append, List.mem_append] at hd
    rcases hd with hd | hd
    · simpa using hcaps d hd
    · simp at hd
      exact absurd hd.symm hxd

/-- Replacing the last element by one assigned to the same day leaves
every per-day count unchanged. -/
theorem countDay_replaceLast (d : Nat) (l : List Item) (last x : Item)
    (hne : l ≠ []) (hlast : l.getLast? = some last) (hday : x.day = last.day) :
    countDay d (l.dropLast ++ [x]) = countDay d l := by
  have hdecomp := List.dropLast_append_getLast hne
  have hgl : l.getLast hne = last := by
    rw [List.getLast?_eq_getLast l hne] at hlast
    exact Option.some_injective _ hlast
  conv_rhs => rw [← hdecomp]
  rw [countDay_concat, countDay_concat, hgl, hday]

theorem capsOK_replaceLast (total : Nat) (l : List Item) (last x : Item)
    (hne : l ≠ []) (hlast : l.getLast? = some last) (hday : x.day = last.day)
    (hcaps : capsOK total l = true) :
    capsOK total (l.dropLast ++ [x]) = true := by
  rw [capsOK_iff] at hcaps ⊢
  intro d hd
  rw [countDay_replaceLast d l last x hne hlast hday]
  have hdecomp := List.dropLast_append_getLast hne
  have hgl : l.getLast hne = last := by
    rw [List.getLast?_eq_getLast l hne] at hlast
    exact Option.some_injective _ hlast
  simp only [List.map_append, List.mem_append] at hd
  rcases hd with hd | hd
  · apply hcaps
    conv_lhs => rw [← hdecomp]
    simp only [List.map_append, List.mem_append]
    exact Or.inl hd
  · simp only [List.map_cons, List.map_nil, List.mem_singleton] at hd
    rw [hd, hday]
    apply hcaps
    conv_lhs => rw [← hdecomp]
    simp only [List.map_append, List.mem_append, hgl]
    right; simp

theorem pairwise_day_concat (l : List Item) (x : Item)
    (h : l.Pairwise dayLE) (hle : ∀ y ∈ l, y.day ≤ x.day) :
    (l ++ [x]).Pairwise dayLE := by
  rw [List.pairwise_append]
  exact ⟨h, by simp, fun y hy z hz => by simp at hz; rw [hz]; exact hle y hy⟩

theorem pairwise_day_replaceLast (l : List Item) (last x : Item)
    (hne : l ≠ []) (hlast : l.getLast? = some last) (hday : x.day = last.day)
    (h : l.Pairwise dayLE) :
    (l.dropLast ++ [x]).Pairwise dayLE := by
  have hdecomp := List.dropLast_append_getLast hne
  have hgl : l.getLast hne = last := by
    rw [List.getLast?_eq_getLast l hne] at hlast
    exact Option.some_injective _ hlast
  rw [← hdecomp, List.pairwise_append] at h
  apply pairwise_day_concat _ _ h.1
  intro y hy
  have := h.2.2 y hy (l.getLast hne) (by simp)
  unfold dayLE at this
  rw [hday, ← hgl]
  exact this

theorem lastDayOf_getLast (l : List Item) (last : Item)
    (hlast : l.getLast? = some last) : lastDayOf l = last.day := by
  unfold lastDayOf
  rw [hlast]

/-! ## Planning-stage addition invariants -/

theorem planningAppend_inv (total : Nat) (s : AddState) (item : Item)
    (hslot : s.slot = none)
    (hmono : s.list.Pairwise dayLE)
    (hcaps : capsOK total s.list = true) :
    (planningAppend total s item).slot = none ∧
    (planningAppend total s item).list.Pairwise dayLE ∧
    capsOK total (planningAppend total s item).list = true := by
  unfold planningAppend
  by_cases hfull : countDay (lastDayOf s.list) s.list ≥ cap (lastDayOf s.list) total
  · rw [if_pos hfull]
    by_cases hlastd : lastDayOf s.list ≥ total
    · rw [if_pos hlastd]
      exact ⟨hslot, hmono, hcaps⟩
    · rw [if_neg hlastd]
      refine ⟨hslot, ?_, ?_⟩
      · apply pairwise_day_concat _ _ hmono
        intro y hy
        have := pairwise_day_mem_le_last s.list hmono y hy
        simp only []
        omega
      · apply capsOK_concat total s.list _ hcaps
        have hzero : countDay (Item.day { item with day := lastDayOf s.list + 1 })
            s.list = 0 := by
          apply countDay_absent
          intro y hy
          have := pairwise_day_mem_le_last s.list hmono y hy
          simp only []
          omega
        rw [hzero]
        exact cap_pos _ total
  · rw [if_neg hfull]
    refine ⟨hslot, ?_, ?_⟩
    · apply pairwise_day_concat _ _ hmono
      intro y hy
      have := pairwise_day_mem_le_last s.list hmono y hy
      simp only []
      omega
    · apply capsOK_concat total s.list _ hcaps
      simp only []
      omega

theorem addPlace_planning_inv (total : Nat) (s : AddState) (item : Item)
    (hslot : s.slot = none)
    (hmono : s.list.Pairwise dayLE)
    (hcaps : capsOK total s.list = true) :
    (addPlace "planning" total s item).slot = none ∧
    (addPlace "planning" total s item).list.Pairwise dayLE ∧
    capsOK total (addPlace "planning" total s item).list = true := by
  unfold addPlace
  rw [hslot]
  dsimp only
  rw [if_pos rfl]
  cases hlast : s.list.getLast? with
  | none => exact planningAppend_inv total s item hslot hmono hcaps
  | some last =>
    dsimp only
    by_cases hrep : catGroup item.type = catGroup last.type ∧ item.name ≠ last.name
    · rw [if_pos hrep]
      have hne : s.list ≠ [] := by
        intro h
        rw [h] at hlast
        simp at hlast
      refine ⟨rfl, ?_, ?_⟩
      · exact pairwise_day_replaceLast s.list last _ hne hlast rfl hmono
      · exact capsOK_replaceLast total s.list last _ hne hlast rfl hcaps
    · rw [if_neg hrep]
      exact planningAppend_inv total s item hslot hmono hcaps

theorem addStep_planning_inv (total : Nat) (s : AddState) (r : ToolRes)
    (hslot : s.slot = none)
    (hmono : s.list.Pairwise dayLE)
    (hcaps : capsOK total s.list = true) :
    (addStep "planning" total s r).slot = none ∧
    (addStep "planning" total s r).list.Pairwise dayLE ∧
    capsOK total (addStep "planning" total s r).list = true := by
  cases r with
  | add item =>
    simp only [addStep]
    by_cases hname : item.name = "" ∨ item.name = noPlaceSentinel
    · rw [if_pos hname]; exact ⟨hslot, hmono, hcaps⟩
    · rw [if_neg hname]
      exact addPlace_planning_inv total _ item hslot hmono hcaps
  | del t => exact ⟨hslot, hmono, hcaps⟩
  | timeline => exact ⟨hslot, hmono, hcaps⟩
  | pdfSkip => exact ⟨hslot, hmono, hcaps⟩
  | failed => exact ⟨hslot, hmono, hcaps⟩

theorem foldl_addStep_planning_inv (total : Nat) :
    ∀ (results : List ToolRes) (s : AddState), s.slot = none →
      s.list.Pairwise dayLE → capsOK total s.list = true →
      (results.foldl (addStep "planning" total) s).list.Pairwise dayLE ∧
      capsOK total (results.foldl (addStep "planning" total) s).list = true := by
  intro results
  induction results with
  | nil => intro s h1 h2 h3; exact ⟨h2, h3⟩
  | cons r rest ih =>
    intro s h1 h2 h3
    have hstep := addStep_planning_inv total s r h1 h2 h3
    exact ih _ hstep.1 hstep.2.1 hstep.2.2

/-! ## Deletion-pass helpers -/

theorem findBestAux_le (c : Score) :
    ∀ (scores : List Score) (i : Nat) (bi : Option Nat) (bs : Score),
      scoreLe bs c = true → (∀ x ∈ scores, scoreLe x c = true) →
      scoreLe (findBestAux scores i bi bs).2 c = true := by
  intro scores
  induction scores with
  | nil => intro i bi bs hbs _; exact hbs
  | cons s rest ih =>
    intro i bi bs hbs hall
    simp only [findBestAux]
    by_cases h : scoreLt bs s = true
    · rw [if_pos h]
      exact ih _ _ _ (hall s (by simp)) (fun x hx => hall x (by simp [hx]))
    · rw [if_neg h]
      exact ih _ _ _ hbs (fun x hx => hall x (by simp [hx]))

theorem scoreLt_half_false (bs : Score) (h : scoreLe bs halfScore = true) :
    scoreLt halfScore bs = false := by
  unfold scoreLe halfScore at h
  unfold scoreLt halfScore
  simp only [decide_eq_true_eq] at h
  simp only [decide_eq_false_iff_not]
  omega

/-- A deletion result whose target scores at most 0.5 against every
current stop leaves the deletion state unchanged. -/
theorem delStep_miss (s : DelState) (t : String)
    (h : ∀ p ∈ s.places,
      scoreLe (delScore (normalizeName t) (normalizeName p.name)) halfScore = true) :
    delStep s (.del (some t)) = s := by
  simp only [delStep]
  have hle : scoreLe (findBest (s.places.map
      (fun p => delScore (normalizeName t) (normalizeName p.name)))).2 halfScore
      = true := by
    apply findBestAux_le
    · decide
    · intro x hx
      rcases List.mem_map.mp hx with ⟨p, hp, rfl⟩
      exact h p hp
  cases hfb : findBest (s.places.map
      (fun p => delScore (normalizeName t) (normalizeName p.name))) with
  | mk bi bs =>
    rw [hfb] at hle
    cases bi with
    | none => rfl
    | some i =>
      dsimp only
      rw [scoreLt_half_false bs hle]
      rw [if_neg (by simp)]

/-- The modification flag of the deletion pass implies a recorded slot
(the two are set together and never reset). -/
theorem processDeletions_modified_slot (results : List ToolRes)
    (itinerary : List Item) :
    (processDeletions results itinerary).modified = true →
    (processDeletions results itinerary).slot.isSome := by
  unfold processDeletions
  generalize hinit : ({ places := itinerary.filter (fun p => !(p.type == "move")) } : DelState) = s0
  have h0 : s0.modified = true → s0.slot.isSome := by
    rw [← hinit]; intro h; simp at h
  clear hinit
  induction results generalizing s0 with
  | nil => exact h0
  | cons r rest ih =>
    simp only [List.foldl_cons]
    apply ih
    cases r with
    | del t =>
      cases t with
      | none => exact h0
      | some t =>
        simp only [delStep]
        cases hfb : findBest (s0.places.map
            (fun p => delScore (normalizeName t) (normalizeName p.name))) with
        | mk bi bs =>
          cases bi with
          | none => exact h0
          | some i =>
            dsimp only
            by_cases hgt : scoreLt halfScore bs = true
            · rw [if_pos hgt]; intro _; simp
            · rw [if_neg hgt]; exact h0
    | add item => exact h0
    | timeline => exact h0
    | pdfSkip => exact h0
    | failed => exact h0

/-- The ban-list fold only appends: previous entries survive. -/
theorem banFold_mem (x : String) :
    ∀ (results : List ToolRes) (acc : List String), x ∈ acc →
      x ∈ results.foldl (fun b r =>
        match r with
        | ToolRes.del (some t) => if t ∈ b then b else b ++ [t]
        | _ => b) acc := by
  intro results
  induction results with
  | nil => intro acc h; exact h
  | cons r rest ih =>
    intro acc h
    apply ih
    cases r with
    | del t =>
      cases t with
      | none => exact h
      | some t =>
        dsimp only
        by_cases ht : t ∈ acc
        · rw [if_pos ht]; exact h
        · rw [if_neg ht]; exact List.mem_append_left _ h
    | add _ => exact h
    | timeline => exact h
    | pdfSkip => exact h
    | failed => exact h

/-- Every delete/replace target of the turn ends up in the folded ban
list. -/
theorem banFold_target :
    ∀ (results : List ToolRes) (acc : List String) (t : String),
      ToolRes.del (some t) ∈ results →
      t ∈ results.foldl (fun b r =>
        match r with
        | ToolRes.del (some t) => if t ∈ b then b else b ++ [t]
        | _ => b) acc := by
  intro results
  induction results with
  | nil => intro acc t h; simp at h
  | cons r rest ih =>
    intro acc t h
    rcases List.mem_cons.mp h with rfl | h
    · simp only [List.foldl_cons]
      apply banFold_mem
      dsimp only
      by_cases ht : t ∈ acc
      · rw [if_pos ht]; exact ht
      · rw [if_neg ht]; exact List.mem_append_right _ (by simp)
    · simp only [List.foldl_cons]
      exact ih _ t h

/-! ## Name-freshness helpers for the de-duplication analysis -/

/-- The add-result names carried by a tool-result list. -/
def addNames (results : List ToolRes) : List String :=
  results.filterMap (fun r =>
    match r with
    | ToolRes.add it => some it.name
    | _ => none)

theorem namesOf_concat (l : List Item) (x : Item) :
    namesOf (l ++ [x]) = namesOf l ++ [x.name] := by
  simp [namesOf]

/-- Placing a fresh-named item preserves name-distinctness, and every
name of the new list is the fresh name or an old one. -/
theorem addPlace_fresh (stage : String) (total : Nat) (s : AddState)
    (item : Item)
    (hnd : (namesOf s.list).Nodup)
    (hfresh : item.name ∉ namesOf s.list) :
    (namesOf (addPlace stage total s item).list).Nodup ∧
    ∀ n ∈ namesOf (addPlace stage total s item).list,
      n = item.name ∨ n ∈ namesOf s.list := by
  have hins : ∀ (i : Nat) (d : Nat),
      (namesOf (pyInsert i { item with day := d } s.list)).Nodup ∧
      ∀ n ∈ namesOf (pyInsert i { item with day := d } s.list),
        n = item.name ∨ n ∈ namesOf s.list := by
    intro i d
    have hperm : List.Perm (namesOf (pyInsert i { item with day := d } s.list))
        (item.name :: namesOf s.list) := by
      unfold namesOf
      rw [map_pyInsert]
      exact pyInsert_perm i _ _
    constructor
    · rw [hperm.nodup_iff]
      exact List.nodup_cons.mpr ⟨hfresh, hnd⟩
    · intro n hn
      have := hperm.mem_iff.mp hn
      simpa using this
  have happ : ∀ (d : Nat),
      (namesOf (s.list ++ [{ item with day := d }])).Nodup ∧
      ∀ n ∈ namesOf (s.list ++ [{ item with day := d }]),
        n = item.name ∨ n ∈ namesOf s.list := by
    intro d
    rw [namesOf_concat]
    constructor
    · apply List.Nodup.append hnd (by simp)
      intro a ha hb
      simp at hb
      rw [hb] at ha
      exact hfresh ha
    · intro n hn
      rcases List.mem_append.mp hn with hn | hn
      · exact Or.inr hn
      · simp at hn; exact Or.inl hn
  have hrepl : ∀ (last : Item), s.list.getLast? = some last →
      (namesOf (s.list.dropLast ++ [{ item with day := last.day }])).Nodup ∧
      ∀ n ∈ namesOf (s.list.dropLast ++ [{ item with day := last.day }]),
        n = item.name ∨ n ∈ namesOf s.list := by
    intro last hlast
    have hne : s.list ≠ [] := by
      intro h; rw [h] at hlast; simp at hlast
    have hdecomp := List.dropLast_append_getLast hne
    have hsubl : List.Sublist (namesOf s.list.dropLast) (namesOf s.list) := by
      unfold namesOf
      exact (List.dropLast_sublist s.list).map _
    rw [namesOf_concat]
    constructor
    · apply List.Nodup.append (hnd.sublist hsubl) (by simp)
      intro a ha hb
      simp at hb
      rw [hb] at ha
      exact hfresh (hsubl.mem ha)
    · intro n hn
      rcases List.mem_append.mp hn with hn | hn
      · exact Or.inr (hsubl.mem hn)
      · simp at hn; exact Or.inl hn
  unfold addPlace
  cases hslot : s.slot with
  | some sl =>
    cases sl with
    | mk i d => exact hins _ d
  | none =>
    dsimp only
    by_cases hstage : stage = "planning"
    · rw [if_pos hstage]
      cases hlast : s.list.getLast? with
      | none =>
        dsimp only
        simp only [planningAppend]
        split
        · split
          · exact ⟨hnd, fun n hn => Or.inr hn⟩
          · exact happ _
        · exact happ _
      | some last =>
        dsimp only
        by_cases hrep : catGroup item.type = catGroup last.type ∧
            item.name ≠ last.name
        · rw [if_pos hrep]
          exact hrepl last hlast
        · rw [if_neg hrep]
          simp only [planningAppend]
          split
          · split
            · exact ⟨hnd, fun n hn => Or.inr hn⟩
            · exact happ _
          · exact happ _
    · rw [if_neg hstage]
      unfold editingInsert
      by_cases hanchor : s.anchor ≠ ""
      · rw [if_pos hanchor]
        cases hidx : findIdxName s.anchor s.list with
        | none => exact happ _
        | some idx => exact hins _ _
      · rw [if_neg hanchor]
        exact happ _

theorem foldl_addStep_fresh (stage : String) (total : Nat) :
    ∀ (results : List ToolRes) (s : AddState),
      (namesOf s.list).Nodup →
      (addNames results).Nodup →
      (∀ n ∈ addNames results, n ∉ namesOf s.list) →
      (namesOf ((results.foldl (addStep stage total) s).list)).Nodup := by
  intro results
  induction results with
  | nil => intro s h1 _ _; exact h1
  | cons r rest ih =>
    intro s h1 h2 h3
    simp only [List.foldl_cons]
    cases r with
    | add item =>
      have hmem : item.name ∈ addNames (ToolRes.add item :: rest) := by
        simp [addNames]
      have hnamestail : addNames (ToolRes.add item :: rest) =
          item.name :: addNames rest := by simp [addNames]
      rw [hnamestail] at h2 h3
      simp only [addStep]
      by_cases hname : item.name = "" ∨ item.name = noPlaceSentinel
      · rw [if_pos hname]
        exact ih s h1 (List.nodup_cons.mp h2).2
          (fun n hn => h3 n (by simp [hn]))
      · rw [if_neg hname]
        have hfresh : item.name ∉ namesOf s.list := h3 item.name (by simp)
        have hstep := addPlace_fresh stage total
          { s with modified := true } item h1 hfresh
        apply ih _ hstep.1 (List.nodup_cons.mp h2).2
        intro n hn hmem2
        rcases hstep.2 n hmem2 with rfl | hmem2
        · exact (List.nodup_cons.mp h2).1 hn
        · exact h3 n (by simp [hn]) hmem2
    | del t =>
      exact ih s h1 (by simpa [addNames] using h2)
        (fun n hn => h3 n (by simpa [addNames] using hn))
    | timeline =>
      exact ih s h1 (by simpa [addNames] using h2)
        (fun n hn => h3 n (by simpa [addNames] using hn))
    | pdfSkip =>
      exact ih s h1 (by simpa [addNames] using h2)
        (fun n hn => h3 n (by simpa [addNames] using hn))
    | failed =>
      exact ih s h1 (by simpa [addNames] using h2)
        (fun n hn => h3 n (by simpa [addNames] using hn))

/-- Deletion-state invariance when every target scores at most 0.5. -/
theorem foldl_delStep_miss :
    ∀ (results : List ToolRes) (s : DelState),
      (∀ t, ToolRes.del (some t) ∈ results →
        ∀ p ∈ s.places,
          scoreLe (delScore (normalizeName t) (normalizeName p.name)) halfScore
            = true) →
      (results.foldl delStep s).places = s.places ∧
      (results.foldl delStep s).slot = s.slot ∧
      (results.foldl delStep s).modified = s.modified := by
  intro results
  induction results with
  | nil => intro s _; exact ⟨rfl, rfl, rfl⟩
  | cons r rest ih =>
    intro s hsc
    simp only [List.foldl_cons]
    cases r with
    | add item => exact ih s (fun t ht => hsc t (by simp [ht]))
    | pdfSkip => exact ih s (fun t ht => hsc t (by simp [ht]))
    | failed => exact ih s (fun t ht => hsc t (by simp [ht]))
    | timeline =>
      have := ih { s with explicit := true }
        (fun t ht p hp => hsc t (by simp [ht]) p hp)
      exact this
    | del t =>
      cases t with
      | none => exact ih s (fun t' ht' => hsc t' (by simp [ht']))
      | some t =>
        rw [delStep_miss s t (hsc t (by simp))]
        exact ih s (fun t' ht' => hsc t' (by simp [ht']))

/-! ## Remaining scheduler / ordering helpers -/

theorem mem_flatMapD (g : Nat → List Item) (y : Item) :
    ∀ ds, y ∈ flatMapD g ds ↔ ∃ d ∈ ds, y ∈ g d := by
  intro ds
  induction ds with
  | nil => simp [flatMapD]
  | cons d rest ih =>
    simp only [flatMapD, List.mem_append, ih, List.mem_cons]
    constructor
    · rintro (h | ⟨d', hd', hy⟩)
      · exact ⟨d, Or.inl rfl, h⟩
      · exact ⟨d', Or.inr hd', hy⟩
    · rintro ⟨d', hd' | hd', hy⟩
      · subst hd'; exact Or.inl hy
      · exact Or.inr ⟨d', hd', hy⟩

theorem pairwise_day_flatMapD (g : Nat → List Item) :
    ∀ ds, ds.Pairwise (· < ·) → (∀ d ∈ ds, ∀ x ∈ g d, x.day = d) →
      (flatMapD g ds).Pairwise dayLE := by
  intro ds
  induction ds with
  | nil => intro _ _; simp [flatMapD]
  | cons d rest ih =>
    intro hp hpure
    rw [List.pairwise_cons] at hp
    simp only [flatMapD]
    rw [List.pairwise_append]
    refine ⟨?_, ih hp.2 (fun d' hd' => hpure d' (by simp [hd'])), ?_⟩
    · apply List.pairwise_of_forall_mem_list
      intro x hx y hy
      unfold dayLE
      rw [hpure d (by simp) x hx, hpure d (by simp) y hy]
    · intro x hx y hy
      rcases (mem_flatMapD g y rest).mp hy with ⟨d', hd', hyd⟩
      unfold dayLE
      rw [hpure d (by simp) x hx, hpure d' (by simp [hd']) y hyd]
      exact Nat.le_of_lt (hp.1 d' hd')

/-- The timeline tool returns its input unchanged whenever the itinerary
holds at least one stop, and the empty timeline otherwise: the per-day
scheduling always raises (see `awaitPlanDayError`) and the tool's
exception handler falls back to the input. -/
theorem planItineraryTimeline_cases (itinerary : List Item) :
    (itinerary.filter (fun p => !(p.type == "move")) ≠ [] →
      planItineraryTimeline itinerary = itinerary)
    ∧ (itinerary.filter (fun p => !(p.type == "move")) = [] →
      planItineraryTimeline itinerary = []) := by
  constructor
  · intro hne
    cases hp : itinerary.filter (fun p => !(p.type == "move")) with
    | nil => exact absurd hp hne
    | cons a t =>
      have hmem : a.day ∈ uniqSorted ((a :: t).map (·.day)) :=
        (mem_uniqSorted _ _).mpr (by simp)
      cases hu : uniqSorted ((a :: t).map (·.day)) with
      | nil => rw [hu] at hmem; simp at hmem
      | cons d ds =>
        simp only [planItineraryTimeline]
        rw [hp, hu]
  · intro hnil
    simp [planItineraryTimeline, hnil, uniqSorted]

/-! ## Claim theorems -/

/-- C1: the claim states that a non-empty day-1 stop list is scheduled
from 12:00 and later days from 10:00.  In fact the scheduler never
assigns any start time at all: `plan_itinerary_timeline` awaits the
synchronous `plan_day` (for this one-stop day the `await` on its plain
list result raises `TypeError`; for longer days `plan_day` itself raises
`AttributeError` from the unawaited async route lookup), and the `except`
at `tools.py` lines 481-484 returns the input unchanged.  The first day-1
stop's start field therefore stays empty — in particular it is not the
claimed "12:00", the policy the repository's own planner and editor
prompts document.  This theorem evaluates the embedded tool at the
failing input. -/
theorem C1_day1_gets_no_start_time :
    planItineraryTimeline [{ name := "X", type := "관광지", day := 1 }]
      = [{ name := "X", type := "관광지", day := 1 }]
    ∧ awaitPlanDayError 36000 [{ name := "X", type := "관광지", day := 1 }]
      = "TypeError: object list cannot be used in await expression"
    ∧ ((planItineraryTimeline
        [{ name := "X", type := "관광지", day := 1 }]).headD defItem).startT = ""
    ∧ ("" : String) ≠ "12:00" := by
  refine ⟨by decide, by decide, by decide, by decide⟩

/-- C4 counterexample: scheduling day 1 with consecutive stops X
(attraction) and Y (restaurant) inserts no TransitLeg of any duration:
the day's scheduling run aborts with `AttributeError` (the unawaited
async route lookup yields a truthy coroutine, so the null-route branch is
never taken and `.get` on the coroutine raises), and the tool's exception
handler returns the input unchanged — no 30-minute TransitLeg appears
between X and Y, and the day's schedule IS aborted, contradicting the
claim on both counts. -/
theorem C4_cex_schedule_aborts_no_leg :
    planDayRun 43200
        [{ name := "X", type := "관광지", day := 1 },
         { name := "Y", type := "식당", day := 1 }]
      = .error "AttributeError: coroutine object has no attribute get"
    ∧ planItineraryTimeline
        [{ name := "X", type := "관광지", day := 1 },
         { name := "Y", type := "식당", day := 1 }]
      = [{ name := "X", type := "관광지", day := 1 },
         { name := "Y", type := "식당", day := 1 }]
    ∧ (planItineraryTimeline
        [{ name := "X", type := "관광지", day := 1 },
         { name := "Y", type := "식당", day := 1 }]).filter
        (fun i => i.type == "move") = [] := by
  refine ⟨rfl, by decide, by decide⟩

/-- C4 (amended): the route lookup can never return null inside
`plan_day` — the `async` `get_detailed_route` is called without `await`,
so `route_result` is always a truthy coroutine and the written null-route
fallback (10 minutes, no TransitLeg) is dead code — and a day of two or
more stops always aborts with `AttributeError` before inserting anything;
`plan_itinerary_timeline` recovers from the per-day failure by returning
the itinerary unchanged whenever it holds at least one stop (and the
empty timeline otherwise), so no TransitLeg of any duration is ever
inserted by scheduling. -/
theorem C4_unawaited_route_aborts_day :
    (∀ (start : Nat) (p q : Item) (rest : List Item),
      planDayRun start (p :: q :: rest)
        = .error "AttributeError: coroutine object has no attribute get")
    ∧ (∀ itinerary : List Item,
        itinerary.filter (fun p => !(p.type == "move")) ≠ [] →
        planItineraryTimeline itinerary = itinerary)
    ∧ (∀ itinerary : List Item,
        itinerary.filter (fun p => !(p.type == "move")) = [] →
        planItineraryTimeline itinerary = []) := by
  refine ⟨fun start p q rest => rfl,
          fun itinerary => (planItineraryTimeline_cases itinerary).1,
          fun itinerary => (planItineraryTimeline_cases itinerary).2⟩

theorem C4_witness :
    planDayRun 0 [{ name := "P", type := "카페" }, { name := "Q", type := "관광지" }]
      = .error "AttributeError: coroutine object has no attribute get"
    ∧ planItineraryTimeline [{ name := "R", type := "식당", day := 2 }]
      = [{ name := "R", type := "식당", day := 2 }]
    ∧ planItineraryTimeline ([] : List Item) = [] :=
  ⟨C4_unawaited_route_aborts_day.1 0 _ _ [],
   C4_unawaited_route_aborts_day.2.1 _ (by decide),
   C4_unawaited_route_aborts_day.2.2 [] (by decide)⟩

/-- C8: after rescheduling, `call_tools_node` normalizes ordering by
stage.  In `planning` stage the result's day-`d` stops are exactly the
specification's category sequence applied to the input's day-`d` stops
(day 1: first restaurant, cafés, attractions, remaining restaurants;
other days: attractions, first restaurant, cafés, remaining restaurants);
in `editing` stage the result is sorted by day and each day's stops keep
their relative order (the day-`d` sublist is exactly the input's day-`d`
sublist). -/
theorem C8_stage_normalization :
    (∀ (l : List Item) (d : Nat),
      (normalizeByStage "planning" l).filter (fun x => x.day == d)
        = specCategorySequence d (l.filter (fun x => x.day == d)))
    ∧ (∀ l : List Item, (normalizeByStage "editing" l).Pairwise dayLE)
    ∧ (∀ (l : List Item) (d : Nat),
        (normalizeByStage "editing" l).filter (fun x => x.day == d)
          = l.filter (fun x => x.day == d)) := by
  have hedit : ∀ l : List Item, normalizeByStage "editing" l = sortByDayStable l := by
    intro l
    unfold normalizeByStage
    rw [if_neg (by decide)]
  have hplan : ∀ l : List Item,
      normalizeByStage "planning" l = reorganizeItineraryPlanning l := by
    intro l
    unfold normalizeByStage
    rw [if_pos rfl]
  have hspec_nil : ∀ d : Nat, specCategorySequence d ([] : List Item) = [] := by
    intro d
    unfold specCategorySequence
    by_cases hd : d = 1 <;> simp [hd]
  refine ⟨?_, ?_, ?_⟩
  · intro l d
    rw [hplan]
    unfold reorganizeItineraryPlanning
    by_cases hnil : l = []
    · rw [if_pos hnil, hnil]
      simp [hspec_nil d]
    · rw [if_neg hnil]
      have hpure : ∀ d' ∈ uniqSorted (l.map (·.day)),
          ∀ x ∈ reorganizeDay d' (l.filter (fun x => x.day == d')), x.day = d' := by
        intro d' _ x hx
        have hx' := (mem_reorganizeDay d' _ x).mp hx
        have := (List.mem_filter.mp hx').2
        simpa using this
      rw [flatMapD_filter_eq _ d _ (nodup_uniqSorted _) hpure]
      by_cases hmem : d ∈ uniqSorted (l.map (·.day))
      · rw [if_pos hmem, reorganizeDay_eq_spec]
      · rw [if_neg hmem]
        have hempty : l.filter (fun x => x.day == d) = [] := by
          apply List.filter_eq_nil_iff.mpr
          intro a ha
          simp only [beq_iff_eq]
          intro had
          exact hmem ((mem_uniqSorted d _).mpr (List.mem_map.mpr ⟨a, ha, had⟩))
        rw [hempty, hspec_nil d]
  · intro l
    rw [hedit]
    unfold sortByDayStable
    apply pairwise_day_flatMapD _ _ (pairwise_uniqSorted _)
    intro d _ x hx
    have := (List.mem_filter.mp hx).2
    simpa using this
  · intro l d
    rw [hedit]
    unfold sortByDayStable
    have hpure : ∀ d' ∈ uniqSorted (l.map (·.day)),
        ∀ x ∈ l.filter (fun x => x.day == d'), x.day = d' := by
      intro d' _ x hx
      have := (List.mem_filter.mp hx).2
      simpa using this
    rw [flatMapD_filter_eq _ d _ (nodup_uniqSorted _) hpure]
    by_cases hmem : d ∈ uniqSorted (l.map (·.day))
    · rw [if_pos hmem]
    · rw [if_neg hmem]
      symm
      apply List.filter_eq_nil_iff.mpr
      intro a ha
      simp only [beq_iff_eq]
      intro had
      exact hmem ((mem_uniqSorted d _).mpr (List.mem_map.mpr ⟨a, ha, had⟩))

/-- C10: `reorganize_itinerary_planning` is a day-preserving permutation:
the output is a permutation of the input (so every input item, with its
`day` field untouched, appears exactly as often as before — in particular
exactly once when the input has no duplicates), and each day's fiber is a
permutation of the input's fiber for that day. -/
theorem C10_reorganize_day_preserving_permutation :
    ∀ l : List Item,
      List.Perm (reorganizeItineraryPlanning l) l
      ∧ (∀ x : Item, (reorganizeItineraryPlanning l).count x = l.count x)
      ∧ (∀ d : Nat,
          List.Perm ((reorganizeItineraryPlanning l).filter (fun x => x.day == d))
            (l.filter (fun x => x.day == d))) := by
  intro l
  exact ⟨reorganize_perm l, fun x => (reorganize_perm l).count_eq x,
         fun d => (reorganize_perm l).filter _⟩

/-- C2 counterexample: with `total_days = 1` and day 1 full at its cap of
4 stops, adding attraction "Y" (same category group as the last stop
"s4", different name) is NOT rejected: it replaces "s4" in place, no
schedule-full signal is raised, and "Y" enters the list — contradicting
"when the current day is full and it is the last day, the addition is
rejected (no stop appended)". -/
theorem C2_cex_full_day_replace_accepts :
    countDay 1 ([{ name := "s1", type := "관광지", day := 1 },
         { name := "s2", type := "관광지", day := 1 },
         { name := "s3", type := "관광지", day := 1 },
         { name := "s4", type := "관광지", day := 1 }] : List Item) = cap 1 1
    ∧ (processAdditions "planning" 1 [ToolRes.add { name := "Y", type := "관광지" }]
        [{ name := "s1", type := "관광지", day := 1 },
         { name := "s2", type := "관광지", day := 1 },
         { name := "s3", type := "관광지", day := 1 },
         { name := "s4", type := "관광지", day := 1 }] none "").list
      = [{ name := "s1", type := "관광지", day := 1 },
         { name := "s2", type := "관광지", day := 1 },
         { name := "s3", type := "관광지", day := 1 },
         { name := "Y", type := "관광지", day := 1 }]
    ∧ (processAdditions "planning" 1 [ToolRes.add { name := "Y", type := "관광지" }]
        [{ name := "s1", type := "관광지", day := 1 },
         { name := "s2", type := "관광지", day := 1 },
         { name := "s3", type := "관광지", day := 1 },
         { name := "s4", type := "관광지", day := 1 }] none "").fullStop = false := by
  refine ⟨by decide, by decide, by decide⟩

/-- C2 (amended): under `planning` stage with no pending empty slot, any
sequence of additions keeps the stop list day-monotone and every day
within its cap (4 for day 1, 1 for the final day, 5 otherwise, rollover
included); and an addition hitting a full last day is rejected with the
schedule-full signal *provided* it does not trigger the same-category
replace-in-place branch (which swaps the last stop instead of
appending). -/
theorem C2_planning_capacity_invariant :
    (∀ (total : Nat) (results : List ToolRes) (itinerary : List Item)
        (anchor : String),
      monoB (itinerary.filter (fun p => !(p.type == "move"))) = true →
      capsOK total (itinerary.filter (fun p => !(p.type == "move"))) = true →
      monoB (processAdditions "planning" total results itinerary none anchor).list
          = true
      ∧ capsOK total
          (processAdditions "planning" total results itinerary none anchor).list
          = true)
    ∧ (∀ (total : Nat) (item : Item) (l : List Item) (anchor : String)
          (last : Item),
        (∀ p ∈ l, p.type ≠ "move") →
        l.getLast? = some last →
        item.name ≠ "" → item.name ≠ noPlaceSentinel →
        ¬(catGroup item.type = catGroup last.type ∧ item.name ≠ last.name) →
        countDay (lastDayOf l) l ≥ cap (lastDayOf l) total →
        lastDayOf l ≥ total →
        (processAdditions "planning" total [ToolRes.add item] l none anchor).list
            = l
        ∧ (processAdditions "planning" total [ToolRes.add item] l none anchor).fullStop
            = true) := by
  constructor
  · intro total results itinerary anchor hmono hcaps
    have h := foldl_addStep_planning_inv total results
      { list := itinerary.filter (fun p => !(p.type == "move")),
        slot := none, anchor := anchor } rfl
      ((monoB_iff_pairwise _).mp hmono) hcaps
    exact ⟨(monoB_iff_pairwise _).mpr h.1, h.2⟩
  · intro total item l anchor last hmove hlast hn1 hn2 hrep hfull hlastd
    have hfil : l.filter (fun p => !(p.type == "move")) = l := by
      apply List.filter_eq_self.mpr
      intro a ha
      simp [hmove a ha]
    unfold processAdditions
    rw [hfil]
    simp only [List.foldl_cons, List.foldl_nil, addStep]
    rw [if_neg (by tauto)]
    unfold addPlace
    dsimp only
    rw [if_pos rfl, hlast]
    dsimp only
    rw [if_neg hrep]
    simp only [planningAppend]
    rw [if_pos hfull, if_pos hlastd]
    exact ⟨rfl, rfl⟩

theorem C2_witness :
    (monoB (processAdditions "planning" 1
        [ToolRes.add { name := "A", type := "관광지" }] ([] : List Item)
        none "").list = true
      ∧ capsOK 1 (processAdditions "planning" 1
        [ToolRes.add { name := "A", type := "관광지" }] ([] : List Item)
        none "").list = true)
    ∧ ((processAdditions "planning" 1 [ToolRes.add { name := "Y", type := "카페" }]
        [{ name := "s1", type := "관광지", day := 1 },
         { name := "s2", type := "관광지", day := 1 },
         { name := "s3", type := "관광지", day := 1 },
         { name := "s4", type := "관광지", day := 1 }] none "").list
        = [{ name := "s1", type := "관광지", day := 1 },
           { name := "s2", type := "관광지", day := 1 },
           { name := "s3", type := "관광지", day := 1 },
           { name := "s4", type := "관광지", day := 1 }]
      ∧ (processAdditions "planning" 1 [ToolRes.add { name := "Y", type := "카페" }]
        [{ name := "s1", type := "관광지", day := 1 },
         { name := "s2", type := "관광지", day := 1 },
         { name := "s3", type := "관광지", day := 1 },
         { name := "s4", type := "관광지", day := 1 }] none "").fullStop = true) := by
  constructor
  · exact C2_planning_capacity_invariant.1 1
      [ToolRes.add { name := "A", type := "관광지" }] [] "" (by decide) (by decide)
  · exact C2_planning_capacity_invariant.2 1 { name := "Y", type := "카페" }
      [{ name := "s1", type := "관광지", day := 1 },
       { name := "s2", type := "관광지", day := 1 },
       { name := "s3", type := "관광지", day := 1 },
       { name := "s4", type := "관광지", day := 1 }] ""
      { name := "s4", type := "관광지", day := 1 }
      (by decide) (by decide) (by decide) (by decide) (by decide) (by decide)
      (by decide)

/-- C3: after a delete/replace removes the stop at index `i` of day `d`,
the next valid addition is inserted at exactly index `i` with day `d` and
the pending empty-slot record is cleared; concretely, on `[A, B, C]` (all
day 1) deleting "B" yields `[A, C]` with pending slot `{index 1, day 1}`,
and adding "D" then yields `[A, D, C]` with "D" on day 1. -/
theorem C3_slot_reuse :
    (∀ (stage : String) (total : Nat) (item : Item) (i d : Nat)
        (l : List Item) (a : String),
      item.name ≠ "" → item.name ≠ noPlaceSentinel →
      i ≤ (l.filter (fun p => !(p.type == "move"))).length →
      (processAdditions stage total [ToolRes.add item] l (some (i, d)) a).list
          = pyInsert i { item with day := d }
              (l.filter (fun p => !(p.type == "move")))
      ∧ (processAdditions stage total [ToolRes.add item] l (some (i, d)) a).slot
          = none
      ∧ (processAdditions stage total [ToolRes.add item] l (some (i, d)) a).modified
          = true
      ∧ nextRemembered
          (processAdditions stage total [ToolRes.add item] l (some (i, d)) a).modified
          (some (i, d)) = none)
    ∧ processDeletions [ToolRes.del (some "B")]
        [{ name := "A", type := "관광지", day := 1 },
         { name := "B", type := "관광지", day := 1 },
         { name := "C", type := "관광지", day := 1 }]
      = { places := [{ name := "A", type := "관광지", day := 1 },
                     { name := "C", type := "관광지", day := 1 }],
          slot := some (1, 1), modified := true, explicit := false }
    ∧ (processAdditions "editing" 3
        [ToolRes.del (some "B"), ToolRes.add { name := "D", type := "카페" }]
        [{ name := "A", type := "관광지", day := 1 },
         { name := "C", type := "관광지", day := 1 }] (some (1, 1)) "").list
      = [{ name := "A", type := "관광지", day := 1 },
         { name := "D", type := "카페", day := 1 },
         { name := "C", type := "관광지", day := 1 }] := by
  refine ⟨?_, by decide, by decide⟩
  intro stage total item i d l a hn1 hn2 hle
  unfold processAdditions
  simp only [List.foldl_cons, List.foldl_nil, addStep]
  rw [if_neg (by tauto)]
  unfold addPlace
  dsimp only
  rw [if_neg (by omega)]
  exact ⟨rfl, rfl, rfl, rfl⟩

theorem C3_witness :
    (processAdditions "editing" 3 [ToolRes.add { name := "D", type := "카페" }]
        [{ name := "A", type := "관광지", day := 1 },
         { name := "C", type := "관광지", day := 1 }] (some (1, 1)) "").list
      = pyInsert 1 { name := "D", type := "카페", day := 1 }
          ([{ name := "A", type := "관광지", day := 1 },
            { name := "C", type := "관광지", day := 1 }].filter
            (fun p => !(p.type == "move")))
    ∧ (processAdditions "editing" 3 [ToolRes.add { name := "D", type := "카페" }]
        [{ name := "A", type := "관광지", day := 1 },
         { name := "C", type := "관광지", day := 1 }] (some (1, 1)) "").slot = none
    ∧ (processAdditions "editing" 3 [ToolRes.add { name := "D", type := "카페" }]
        [{ name := "A", type := "관광지", day := 1 },
         { name := "C", type := "관광지", day := 1 }] (some (1, 1)) "").modified = true
    ∧ nextRemembered
        (processAdditions "editing" 3 [ToolRes.add { name := "D", type := "카페" }]
          [{ name := "A", type := "관광지", day := 1 },
           { name := "C", type := "관광지", day := 1 }] (some (1, 1)) "").modified
        (some (1, 1)) = none :=
  C3_slot_reuse.1 "editing" 3 { name := "D", type := "카페" } 1 1
    [{ name := "A", type := "관광지", day := 1 },
     { name := "C", type := "관광지", day := 1 }] ""
    (by decide) (by decide) (by decide)

/-- C5 counterexample: `process_additions` performs no name check at all.
Feeding it a search result named "A" while a stop "A" already exists
appends a second "A" (same category as the last stop but an identical
name, so the replace branch does not fire), so the mutator's addition
processing can produce duplicate names. -/
theorem C5_cex_duplicate_insertion :
    namesOf (processAdditions "planning" 3
        [ToolRes.add { name := "A", type := "식당" }]
        [{ name := "A", type := "식당", day := 1 }] none "").list = ["A", "A"]
    ∧ ¬ (namesOf (processAdditions "planning" 3
        [ToolRes.add { name := "A", type := "식당" }]
        [{ name := "A", type := "식당", day := 1 }] none "").list).Nodup := by
  constructor
  · decide
  · decide

/-- C5 (amended): the mutator itself never checks names; de-duplication
holds only because `execute_tools` hands the place search an exclusion
list containing every current stop name.  Under that upstream guarantee —
every addition name is absent from the current stop list and the
additions of one turn carry pairwise distinct names — no two stops of the
resulting itinerary share a name. -/
theorem C5_dedup_under_fresh_names :
    ∀ (stage : String) (total : Nat) (results : List ToolRes)
      (itinerary : List Item) (slot0 : Option (Nat × Nat)) (a : String),
      (namesOf (itinerary.filter (fun p => !(p.type == "move")))).Nodup →
      (addNames results).Nodup →
      (∀ n ∈ addNames results,
        n ∉ namesOf (itinerary.filter (fun p => !(p.type == "move")))) →
      (namesOf (processAdditions stage total results itinerary slot0 a).list).Nodup := by
  intro stage total results itinerary slot0 a h1 h2 h3
  exact foldl_addStep_fresh stage total results
    { list := itinerary.filter (fun p => !(p.type == "move")),
      slot := slot0, anchor := a } h1 h2 h3

theorem C5_witness :
    (namesOf (processAdditions "editing" 2
        [ToolRes.add { name := "N", type := "카페" }]
        [{ name := "M", type := "식당", day := 1 }] none "M").list).Nodup :=
  C5_dedup_under_fresh_names "editing" 2
    [ToolRes.add { name := "N", type := "카페" }]
    [{ name := "M", type := "식당", day := 1 }] none "M"
    (by decide) (by decide) (by decide)

/-- C6: a delete/replace result whose target matches no current stop with
similarity above the 0.5 threshold removes nothing: the stop list, the
pending-slot record and the modification flag are all left untouched (the
intent is a recoverable no-op). -/
theorem C6_fuzzy_miss_noop :
    ∀ (results : List ToolRes) (itinerary : List Item),
      (∀ t, ToolRes.del (some t) ∈ results →
        ∀ p ∈ itinerary.filter (fun p => !(p.type == "move")),
          scoreLe (delScore (normalizeName t) (normalizeName p.name)) halfScore
            = true) →
      (processDeletions results itinerary).places
          = itinerary.filter (fun p => !(p.type == "move"))
      ∧ (processDeletions results itinerary).slot = none
      ∧ (processDeletions results itinerary).modified = false := by
  intro results itinerary h
  exact foldl_delStep_miss results
    { places := itinerary.filter (fun p => !(p.type == "move")) } h

theorem C6_witness :
    (processDeletions [ToolRes.del (some "cd")]
        [{ name := "ab", type := "관광지", day := 1 }]).places
      = [{ name := "ab", type := "관광지", day := 1 }]
    ∧ (processDeletions [ToolRes.del (some "cd")]
        [{ name := "ab", type := "관광지", day := 1 }]).slot = none
    ∧ (processDeletions [ToolRes.del (some "cd")]
        [{ name := "ab", type := "관광지", day := 1 }]).modified = false := by
  have h := C6_fuzzy_miss_noop [ToolRes.del (some "cd")]
    [{ name := "ab", type := "관광지", day := 1 }] ?_
  · exact h
  · intro t ht p hp
    have ht' : t = "cd" := by
      simp only [List.mem_singleton] at ht
      cases ht
      rfl
    subst ht'
    have hp' : p = { name := "ab", type := "관광지", day := 1 } := by
      have := List.mem_of_mem_filter hp
      simpa using this
    subst hp'
    decide

/-- C7 counterexample: deleting with target "B" fuzzy-matches and removes
the stop named "BB" (ratio 2/3 > 0.5), but the ban list records the raw
target "B", not the deleted stop's name "BB" — so the deleted stop's own
name is never banned, contradicting "its name is added to the session's
permanent ban list". -/
theorem C7_cex_ban_records_target_not_name :
    (processDeletions [ToolRes.del (some "B")]
        [{ name := "BB", type := "관광지", day := 1 }]).places = []
    ∧ (processDeletions [ToolRes.del (some "B")]
        [{ name := "BB", type := "관광지", day := 1 }]).modified = true
    ∧ banAfterTurn [ToolRes.del (some "B")]
        [{ name := "BB", type := "관광지", day := 1 }] [] = ["B"]
    ∧ "BB" ∉ banAfterTurn [ToolRes.del (some "B")]
        [{ name := "BB", type := "관광지", day := 1 }] [] := by
  refine ⟨by decide, by decide, by decide, by decide⟩

/-- C7 (amended): when the turn performed a deletion, `call_tools_node`
appends every delete/replace *target string* of the turn to the ban list;
the ban list is append-only (existing entries survive), and its entries
are enforced only through the exclusion list handed to the place search
(`final_exclude_list`), not by the addition processor. -/
theorem C7_ban_list_append_only :
    ∀ (results : List ToolRes) (itinerary : List Item) (ban : List String),
      (processDeletions results itinerary).modified = true →
      (∀ b ∈ ban, b ∈ banAfterTurn results itinerary ban)
      ∧ (∀ t, ToolRes.del (some t) ∈ results →
          t ∈ banAfterTurn results itinerary ban)
      ∧ (∀ b ∈ ban, b ∈ finalExcludeList itinerary ban) := by
  intro results itinerary ban hmod
  have hsome := processDeletions_modified_slot results itinerary hmod
  unfold banAfterTurn banUpdate
  rw [if_pos ⟨hmod, hsome⟩]
  refine ⟨fun b hb => banFold_mem b results ban hb,
          fun t ht => banFold_target results ban t ht,
          fun b hb => ?_⟩
  unfold finalExcludeList
  rw [List.mem_dedup]
  exact List.mem_append_right _ hb

theorem C7_witness :
    "Z" ∈ banAfterTurn [ToolRes.del (some "B")]
        [{ name := "BB", type := "관광지", day := 1 }] ["Z"]
    ∧ "B" ∈ banAfterTurn [ToolRes.del (some "B")]
        [{ name := "BB", type := "관광지", day := 1 }] ["Z"]
    ∧ "Z" ∈ finalExcludeList [{ name := "BB", type := "관광지", day := 1 }] ["Z"] := by
  have h := C7_ban_list_append_only [ToolRes.del (some "B")]
    [{ name := "BB", type := "관광지", day := 1 }] ["Z"] (by decide)
  exact ⟨h.1 "Z" (by decide), h.2.1 "B" (by decide), h.2.2 "Z" (by decide)⟩

/-- C9 counterexample: when the pre-scan's best match is the first stop
(index 0), the anchor falls back to the session's `current_anchor` when
that is non-empty — the destination is used only when the current anchor
is empty.  With current anchor "Beta" and destination "Seoul", deleting
the sole stop "Alpha" sets the anchor to "Beta", not "Seoul". -/
theorem C9_cex_anchor_prefers_current_anchor :
    preScanAnchor [{ name := "Alpha", type := "관광지", day := 1 }] "Beta" "Seoul"
        [ToolCall.delete (some "Alpha")] = some "Beta"
    ∧ some ("Beta" : String) ≠ some "Seoul" := by
  refine ⟨by decide, by decide⟩

/-- C9 (amended): for a delete/replace call whose target's best fuzzy
match (0.5 threshold, substring containment scoring 1.0) sits at index
`i`, the pre-scan sets the turn's search anchor to the entry at `i - 1`
when `i > 0`, and otherwise to the session's current anchor when
non-empty, else the destination. -/
theorem C9_prescan_anchor :
    ∀ (t : String) (itinerary : List Item) (cur dest : String) (i : Nat)
      (bs : Score),
      findBest (itinerary.map (fun p =>
        preScore (normalizeName t) (normalizeName p.name))) = (some i, bs) →
      scoreLt halfScore bs = true →
      preScanAnchor itinerary cur dest [ToolCall.delete (some t)] =
        some (if i > 0 then (itinerary.getD (i - 1) defItem).name
              else if cur ≠ "" then cur else dest) := by
  intro t itinerary cur dest i bs hfb hgt
  simp only [preScanAnchor]
  rw [hfb]
  dsimp only
  rw [if_pos hgt]

theorem C9_witness :
    preScanAnchor [{ name := "Other", type := "관광지", day := 1 },
                   { name := "Alpha", type := "관광지", day := 1 }] "" "Seoul"
        [ToolCall.delete (some "Alpha")] = some "Other" := by
  have h := C9_prescan_anchor "Alpha"
    [{ name := "Other", type := "관광지", day := 1 },
     { name := "Alpha", type := "관광지", day := 1 }] "" "Seoul" 1 (1, 1)
    (by decide) (by decide)
  rw [h]
  decide

end TripPlan
